import Mathlib

/-!
# Verification of the oh-my-node-modules scan/size/deletion core

A shallow embedding of the scanner, size-estimation and deletion modules of
the `oh-my-node-modules` repository (`src/scanner.ts`, `src/deletion.ts`,
`src/utils.ts`, and the worker-thread size calculator), together with proofs
about the spec's claims.

Modelling conventions:
* A filesystem path is its list of `/`-separated segments (`Path := List String`);
  absolute paths such as `/p/node_modules` are `["", "p", "node_modules"]`.
  The JS code's string operations on paths are translated segment-wise; this is
  exact for the patterns the code uses (`"node_modules"`, `"."`, lockfile names,
  `"package.json"`) because none of them contains a separator, so e.g. a string
  suffix check against `"node_modules"` coincides with a suffix check on the
  final segment, and `String.prototype.includes("node_modules")` coincides with
  a substring check on some segment.
* The filesystem is a finite map from paths to node metadata (file with size and
  mtime, directory with mtime, or symbolic link).  `fs.stat`/`fs.readdir`/
  `fs.access` resolve symbolic links component-wise, as the kernel does; the
  resolution carries a step fuel so that link cycles (on which the real syscalls
  would keep resolving) surface as `none`.
* Timestamps are integer millisecond epochs (`Date.now()`-style); wall-clock
  "now" is an explicit parameter.
* `fs.rm(path, {recursive: true})` is modelled as removal of every key at or
  below the path and always succeeds: the model has no EPERM/EBUSY conditions,
  and the `forceDelete` escalation chain also ends in removal of the subtree.
-/

namespace ONM

/-- A path, as its list of `/`-separated segments. -/
abbrev Path := List String

/-- Models Node's `basename(p)` (the final path segment). -/
def pathBase (p : Path) : Option String := p.getLast?

/-- Models Node's `dirname(p)` (drop the final segment) for non-root paths. -/
def pathDir (p : Path) : Path := p.dropLast

/-- `pathUnder q p` : `q` is an ancestor of `p` or equal to it (segment-wise
prefix).  This is the set of keys removed by a recursive removal of `q`. -/
def pathUnder : Path → Path → Bool
  | [], _ => true
  | _ :: _, [] => false
  | a :: as, b :: bs => a == b && pathUnder as bs

/-- `charsHave hay pat` : `pat` occurs as a contiguous run at the front of
`hay`. -/
def charsHave : List Char → List Char → Bool
  | _, [] => true
  | [], _ :: _ => false
  | a :: as, b :: bs => a == b && charsHave as bs

/-- Models JS `s.startsWith(pre)`. -/
def strStartsWith (s pre : String) : Bool := charsHave s.toList pre.toList

/-- Models JS `s.endsWith(sfx)`. -/
def strEndsWith (s sfx : String) : Bool := charsHave s.toList.reverse sfx.toList.reverse

/-- Models JS `p.endsWith(s)` on the joined path string, for a suffix `s` that
contains no separator: such a suffix of the joined string is exactly a suffix
of the final segment. -/
def pathEndsWith (p : Path) (s : String) : Bool :=
  match p.getLast? with
  | some l => strEndsWith l s
  | none => false

/-- `charsContain hay pat` : `pat` occurs contiguously anywhere in `hay`. -/
def charsContain (hay pat : List Char) : Bool :=
  charsHave hay pat ||
    match hay with
    | [] => false
    | _ :: t => charsContain t pat

/-- Models JS `str.includes(pat)`. -/
def strContains (hay pat : String) : Bool := charsContain hay.toList pat.toList

/-- Models JS `parentDir.includes(pat)` on the joined path string, for a
pattern with no separator: an occurrence cannot span a `/`, so it lies inside
a single segment. -/
def pathContains (p : Path) (pat : String) : Bool :=
  p.any fun seg => strContains seg pat

/-- Filesystem node metadata: a regular file (byte size, mtime in ms), a
directory (mtime in ms), or a symbolic link to an absolute target path. -/
inductive FMeta where
  | file (size : Nat) (mtime : Int)
  | dir (mtime : Int)
  | symlink (target : Path)
  deriving DecidableEq, Repr

/-- A filesystem: a finite map from absolute paths to node metadata. -/
abbrev FS := List (Path × FMeta)

/-- Raw namespace lookup (no symlink resolution), first match wins. -/
def lookupFS : FS → Path → Option FMeta
  | [], _ => none
  | e :: fs, p => if e.1 = p then some e.2 else lookupFS fs p

/-- `true` when the filesystem contains no symbolic links. -/
def noLinks (fs : FS) : Bool :=
  fs.all fun e =>
    match e.2 with
    | FMeta.symlink _ => false
    | _ => true

/-- Component-wise symlink resolution, as the kernel performs for `stat`,
`readdir` and `access`: walk the segments of `rest`, appending each to the
already-canonical `acc`; when the grown path is a symlink, restart resolution
at its target before continuing.  `fuel` bounds the number of resolution steps
so that link cycles surface as `none`. -/
def canonFrom (fs : FS) : Nat → Path → Path → Option Path
  | 0, _, _ => none
  | _ + 1, acc, [] => some acc
  | fuel + 1, acc, s :: rest =>
    match lookupFS fs (acc ++ [s]) with
    | some (FMeta.symlink t) =>
      match canonFrom fs fuel [] t with
      | none => none
      | some ct => canonFrom fs fuel ct rest
    | _ => canonFrom fs fuel (acc ++ [s]) rest

/-- Canonicalise a path, resolving symbolic links in every component. -/
def canonPath (fs : FS) (fuel : Nat) (p : Path) : Option Path :=
  canonFrom fs fuel [] p

/-- Models `fs.stat(p)`: resolve links, then read the node's metadata.
`none` models the call throwing (ENOENT, or a link cycle / fuel exhaustion). -/
def statFS (fs : FS) (fuel : Nat) (p : Path) : Option FMeta :=
  match canonPath fs fuel p with
  | none => none
  | some cp => lookupFS fs cp

/-- `stats.isDirectory()` after a successful `fs.stat(p)`. -/
def isDirFS (fs : FS) (fuel : Nat) (p : Path) : Bool :=
  match statFS fs fuel p with
  | some (FMeta.dir _) => true
  | _ => false

/-- Models `fileExists` from `src/utils.ts` (`fs.access` wrapped in
try/catch: resolves links, true iff the node is reachable). -/
def fileExists (fs : FS) (fuel : Nat) (p : Path) : Bool :=
  (statFS fs fuel p).isSome

/-- The child names of a canonical directory path: last segments of the keys
directly below it. -/
def childNames (fs : FS) (cp : Path) : List String :=
  fs.filterMap fun e =>
    if e.1.dropLast = cp ∧ e.1 ≠ cp then e.1.getLast? else none

/-- Models `fs.readdir(p)`: resolve links; succeeds iff the resolved node is a
directory, returning the child names. -/
def readdirFS (fs : FS) (fuel : Nat) (p : Path) : Option (List String) :=
  match canonPath fs fuel p with
  | none => none
  | some cp =>
    match lookupFS fs cp with
    | some (FMeta.dir _) => some (childNames fs cp)
    | _ => none

/-- Models `fs.rm(p, {recursive: true, force: true})` on a directory: every
key at or below `p` is removed.  In the model removal always succeeds (no
permission/lock errors); the `forceDelete` escalation chain of `deletion.ts`
likewise ends with the subtree removed. -/
def rmFS (fs : FS) (q : Path) : FS :=
  fs.filter fun e => !(pathUnder q e.1)

/-! ## Data model (`src/types.ts`)

`NodeModulesInfo` restricted to the machine-relevant fields; the derived
display strings (`sizeFormatted`, `lastModifiedFormatted`) and the derived
category fields are presentation data not consumed by the scanner/deletion
logic under verification. -/

structure NodeModulesInfo where
  path : Path
  projectPath : Path
  projectName : String
  sizeBytes : Nat
  packageCount : Nat
  totalPackageCount : Nat
  lastModified : Int
  selected : Bool
  isFavorite : Bool
  deriving DecidableEq, Repr

structure DeleteOptions where
  dryRun : Bool
  force : Bool
  checkRunningProcesses : Bool
  deriving DecidableEq, Repr

/-- Per-entry outcome (`DeletionDetail` of `src/types.ts`); `durationMs` is
wall-clock time and is not modelled. -/
structure DeletionDetail where
  nodeModules : NodeModulesInfo
  success : Bool
  error : Option String
  deriving DecidableEq, Repr

structure DeletionResult where
  totalAttempted : Nat
  successful : Nat
  failed : Nat
  bytesFreed : Nat
  details : List DeletionDetail
  deriving DecidableEq, Repr

/-! ## Deletion module (`src/deletion.ts`) -/

/-- The three recognized lockfile names checked by `isNodeModulesInUse`
(`src/scanner.ts`). -/
def lockFileNames : List String := [".package-lock.json", "yarn.lock", "pnpm-lock.yaml"]

/-- Models `isNodeModulesInUse` (`src/scanner.ts`): true when a sibling
project lockfile was modified within the last 60 seconds. -/
def isNodeModulesInUse (fs : FS) (fuel : Nat) (now : Int) (p : Path) : Bool :=
  let projectPath := pathDir p
  lockFileNames.any fun lf =>
    match statFS fs fuel (projectPath ++ [lf]) with
    | some (FMeta.file _ mtime) => now - 60000 < mtime
    | _ => false

/-- Models `verifyNodeModules` (`src/deletion.ts`): basename must be exactly
`node_modules`; then the directory must contain at least one subdirectory OR
the parent directory must contain `package.json`.  A `readdir` failure is
caught and yields `false`. -/
def verifyNodeModules (fs : FS) (fuel : Nat) (p : Path) : Bool :=
  if pathBase p ≠ some "node_modules" then false
  else
    match readdirFS fs fuel p with
    | none => false
    | some entries =>
      let hasSubdirs := entries.any fun n => isDirFS fs fuel (p ++ [n])
      let parentPath := if pathBase p = some "node_modules" ∧ 2 ≤ p.length then p.dropLast else p
      let hasPackageJson := fileExists fs fuel (parentPath ++ ["package.json"])
      hasSubdirs || hasPackageJson

def msgNotNodeModules : String := "Path does not appear to be a node_modules directory"
def msgNotExist : String := "Directory does not exist"
def msgInUse : String := "Directory appears to be in use by a running process"
def msgNotValid : String := "Directory does not appear to be a valid node_modules"

/-- Models `deleteNodeModules` (`src/deletion.ts`): the four safety checks in
order, then dry-run simulation or actual removal.  Returns the per-entry
detail and the resulting filesystem. -/
def deleteNodeModules (fs : FS) (fuel : Nat) (now : Int) (nm : NodeModulesInfo)
    (opts : DeleteOptions) : DeletionDetail × FS :=
  if ¬ pathEndsWith nm.path "node_modules" then
    (⟨nm, false, some msgNotNodeModules⟩, fs)
  else if ¬ fileExists fs fuel nm.path then
    (⟨nm, false, some msgNotExist⟩, fs)
  else if opts.checkRunningProcesses ∧ isNodeModulesInUse fs fuel now nm.path then
    (⟨nm, false, some msgInUse⟩, fs)
  else if ¬ verifyNodeModules fs fuel nm.path then
    (⟨nm, false, some msgNotValid⟩, fs)
  else if opts.dryRun then
    (⟨nm, true, none⟩, fs)
  else
    (⟨nm, true, none⟩, rmFS fs nm.path)

/-- The body of the loop of `deleteSelectedNodeModules`: process the already
filtered selected items in order, threading the filesystem. -/
def runDeletions (fuel : Nat) (now : Int) (opts : DeleteOptions) :
    FS → List NodeModulesInfo → List DeletionDetail × FS
  | fs, [] => ([], fs)
  | fs, nm :: rest =>
    let step := deleteNodeModules fs fuel now nm opts
    let restRun := runDeletions fuel now opts step.2 rest
    (step.1 :: restRun.1, restRun.2)

/-- The `onProgress(i + 1, total, item.projectName)` calls issued by the loop
of `deleteSelectedNodeModules`, in order. -/
def deletionTrace (total : Nat) : Nat → List NodeModulesInfo → List (Nat × Nat × String)
  | _, [] => []
  | i, nm :: rest => (i + 1, total, nm.projectName) :: deletionTrace total (i + 1) rest

/-- Models `deleteSelectedNodeModules` (`src/deletion.ts`): filter to the
selected entries, delete each in order, aggregate statistics.  Returns the
result, the final filesystem, and the progress-callback trace
(`formattedBytesFreed`, a display string, is not modelled). -/
def deleteSelectedNodeModules (fs : FS) (fuel : Nat) (now : Int)
    (nodeModules : List NodeModulesInfo) (opts : DeleteOptions) :
    DeletionResult × FS × List (Nat × Nat × String) :=
  let selected := nodeModules.filter (·.selected)
  let run := runDeletions fuel now opts fs selected
  let succ := run.1.filter (·.success)
  ({ totalAttempted := selected.length
     successful := succ.length
     failed := (run.1.filter fun d => !d.success).length
     bytesFreed := (succ.map fun d => d.nodeModules.sizeBytes).sum
     details := run.1 },
   run.2,
   deletionTrace selected.length 0 selected)

/-! ## Selection operations (`src/deletion.ts`) -/

/-- Models `selectBySize`: mark every entry of at least `minSizeBytes` as
selected; entries below the threshold are returned unchanged. -/
def selectBySize (nodeModules : List NodeModulesInfo) (minSizeBytes : Nat) :
    List NodeModulesInfo :=
  nodeModules.map fun nm =>
    if minSizeBytes ≤ nm.sizeBytes then { nm with selected := true } else nm

/-- Models `selectAll`. -/
def selectAll (nodeModules : List NodeModulesInfo) (selected : Bool) :
    List NodeModulesInfo :=
  nodeModules.map fun nm => { nm with selected := selected }

/-- Models `invertSelection`. -/
def invertSelection (nodeModules : List NodeModulesInfo) : List NodeModulesInfo :=
  nodeModules.map fun nm => { nm with selected := !nm.selected }

/-! ## Portable fallback size estimator

`calculateDirectorySize` of the worker module and `calculateDirectorySizeSimple`
of `src/scanner.ts` are textually the same algorithm: an iterative worklist
traversal with a processed-path set, `fs.stat` per path, `+ 4096` per directory
node, and package counting guarded by an `isTopLevel` flag that is cleared once
the root path has been processed. -/

structure SizeAcc where
  totalSize : Nat
  packageCount : Nat
  totalPackageCount : Nat
  deriving DecidableEq, Repr

/-- The package-name exclusion used by both counters:
`!entryName.startsWith('.') && entryName !== '.bin'` applied to
`basename(currentPath)`. -/
def countsAsPackage (p : Path) : Bool :=
  match p.getLast? with
  | some n => !strStartsWith n "." && n != ".bin"
  | none => false

/-- The body of one loop iteration on a not-yet-processed path `p`: the
`fs.stat` call and the branch on its outcome, returning the updated
accumulator and stack. -/
def sizeStep (fs : FS) (linkFuel : Nat) (dirPath p : Path) (stack : List Path)
    (acc : SizeAcc) (isTop : Bool) : SizeAcc × List Path :=
  match statFS fs linkFuel p with
  | some (FMeta.file sz _) =>
    ({ acc with totalSize := acc.totalSize + sz }, stack)
  | some (FMeta.dir _) =>
    let acc1 := { acc with totalSize := acc.totalSize + 4096 }
    let acc2 :=
      if isTop ∧ p ≠ dirPath ∧ countsAsPackage p then
        { acc1 with packageCount := acc1.packageCount + 1 }
      else acc1
    let acc3 :=
      if p ≠ dirPath ∧ countsAsPackage p then
        { acc2 with totalPackageCount := acc2.totalPackageCount + 1 }
      else acc2
    let stack2 :=
      match readdirFS fs linkFuel p with
      | some names => names.foldl (fun st n => (p ++ [n]) :: st) stack
      | none => stack
    (acc3, stack2)
  | _ => (acc, stack)

/-- One `while (pathsToProcess.length > 0)` loop of the traversal.  The JS
array with `push`/`pop` at its end is represented head-first: pushing the
`readdir` children in order and then popping yields the last child first, as
`foldl` consing onto the stack does here.  `loopFuel` bounds the number of
iterations: the JS loop has no such bound, so exhaustion (`none`) models
non-termination.  A dedup hit (`continue`) skips the `isTopLevel` reset, as in
the source. -/
def sizeLoop (fs : FS) (linkFuel : Nat) (dirPath : Path) :
    Nat → List Path → List Path → SizeAcc → Bool → Option SizeAcc
  | _, [], _, acc, _ => some acc
  | 0, _ :: _, _, _, _ => none
  | loopFuel + 1, p :: stack, processed, acc, isTop =>
    if p ∈ processed then
      sizeLoop fs linkFuel dirPath loopFuel stack processed acc isTop
    else
      let next := sizeStep fs linkFuel dirPath p stack acc isTop
      sizeLoop fs linkFuel dirPath loopFuel next.2 (p :: processed) next.1
        (if p = dirPath then false else isTop)

/-- Models `calculateDirectorySize` (worker module) and
`calculateDirectorySizeSimple` (`src/scanner.ts`). -/
def calculateDirectorySize (fs : FS) (linkFuel loopFuel : Nat) (dirPath : Path) :
    Option SizeAcc :=
  sizeLoop fs linkFuel dirPath loopFuel [dirPath] [] ⟨0, 0, 0⟩ true

/-! ## Discovery (`scanForNodeModules` / `quickScan` filters, `src/scanner.ts`)

The `fdir` crawler enumerates every directory under the root (the trailing
slashes it appends are stripped by the callers before use, so they are not
modelled) and keeps those admitted by the filter callback. -/

/-- All directory paths at or below `root` (the `fdir().withDirs()` crawl). -/
def dirsUnder (fs : FS) (root : Path) : List Path :=
  fs.filterMap fun e =>
    match e.2 with
    | FMeta.dir _ => if pathUnder root e.1 then some e.1 else none
    | _ => none

/-- The filter callback of `quickScan`: basename is `node_modules` and the
parent directory's joined path does not contain `node_modules`. -/
def quickScanFilter (p : Path) : Bool :=
  (pathBase p == some "node_modules") && !(pathContains (pathDir p) "node_modules")

/-- Models `quickScan` discovery (`src/scanner.ts`): the crawl filtered by
`quickScanFilter`, reported as the `node_modules` paths. -/
def quickScan (fs : FS) (root : Path) : List Path :=
  (dirsUnder fs root).filter quickScanFilter

/-- Models `projectPath.replace(rootPath, '')` followed by splitting: JS
`String.prototype.replace` with a string pattern removes the first occurrence;
for the crawl every candidate lies below the root, so this is stripping the
root prefix. -/
def stripRoot (root p : Path) : Path :=
  if pathUnder root p then p.drop root.length else p

/-- The filter callback of `scanForNodeModules`: directory named
`node_modules`, parent not inside a `node_modules`, no hidden path component
between root and project, and within `maxDepth` when configured. -/
def scanFilter (root : Path) (maxDepth : Option Nat) (p : Path) : Bool :=
  (pathBase p == some "node_modules")
    && !(pathContains (pathDir p) "node_modules")
    && (let pathParts := stripRoot root (pathDir p)
        !(pathParts.any fun part => strStartsWith part ".")
          && (match maxDepth with
              | none => true
              | some d => (pathParts.filter fun s => 0 < s.length).length ≤ d))

/-! ## Scan orchestrator (`scanForNodeModules`, `src/scanner.ts`)

The per-candidate analysis runs under a `p-limit` concurrency bound; the spec's
scheduling model (§5) is cooperative single-threaded, and the model serialises
the analyses in candidate order.  Only the fields consumed by the orchestrator
loop — `sizeBytes` and `lastModified`, which feed the min-size/age filters and
the progress accounting — are modelled for `analyzeNodeModules`. -/

structure ScanOptions where
  rootPath : Path
  maxDepth : Option Nat
  minSizeBytes : Option Nat
  olderThanDays : Option Nat
  deriving Repr

/-- Models `getAgeInDays`: `Math.floor((now - t) / 86400000)`. -/
def getAgeInDays (now t : Int) : Int := (now - t).fdiv 86400000

/-- Models `analyzeNodeModules` restricted to `(sizeBytes, lastModified)`:
a single `fs.stat` for the mtime (a failure throws, modelled as `none`), and in
eager mode the worker traversal for the size (worker and fallback are the same
algorithm; `none` models its failure or non-termination).  Lazy mode returns
placeholder size `0`. -/
def analyzeNodeModules (fs : FS) (linkFuel loopFuel : Nat) (p : Path)
    (lazy : Bool) : Option (Nat × Int) :=
  match statFS fs linkFuel p with
  | some (FMeta.file _ mt) =>
    if lazy then some (0, mt)
    else (calculateDirectorySize fs linkFuel loopFuel p).map fun a => (a.totalSize, mt)
  | some (FMeta.dir mt) =>
    if lazy then some (0, mt)
    else (calculateDirectorySize fs linkFuel loopFuel p).map fun a => (a.totalSize, mt)
  | _ => none

/-- `Math.round((len / total) * 90)` for natural `len ≤ total`, `total > 0`:
round-half-up equals `⌊(180·len + total) / (2·total)⌋`. -/
def round90 (len total : Nat) : Nat := (180 * len + total) / (2 * total)

/-- Whether an analyzed entry passes the scan filters
(`!options.minSizeBytes || size >= options.minSizeBytes`, same for age; a
configured value of `0` is falsy in JS and disables the filter). -/
def passesScanFilters (opts : ScanOptions) (now : Int) (size : Nat) (mt : Int) : Bool :=
  (match opts.minSizeBytes with
   | none => true
   | some m => m = 0 || m ≤ size)
  && (match opts.olderThanDays with
      | none => true
      | some d => d = 0 || (d : Int) ≤ getAgeInDays now mt)

/-- The analysis loop of `scanForNodeModules`, serialised in candidate order:
returns the `(progress, found)` callback pairs it issues, the final found
count, and the paths whose analysis failed (collected into the error list, with
no progress call for them). -/
def scanLoop (fs : FS) (linkFuel loopFuel : Nat) (now : Int) (opts : ScanOptions)
    (lazy : Bool) (total : Nat) :
    List Path → Nat → List (Nat × Nat) × Nat × List Path
  | [], len => ([], len, [])
  | c :: cs, len =>
    match analyzeNodeModules fs linkFuel loopFuel c lazy with
    | none =>
      let rest := scanLoop fs linkFuel loopFuel now opts lazy total cs len
      (rest.1, rest.2.1, c :: rest.2.2)
    | some (size, mt) =>
      let len' := if lazy || passesScanFilters opts now size mt then len + 1 else len
      let rest := scanLoop fs linkFuel loopFuel now opts lazy total cs len'
      ((10 + round90 len' total, len') :: rest.1, rest.2.1, rest.2.2)

/-- Models `scanForNodeModules` (`src/scanner.ts`): discovery via the filtered
crawl, then the analysis loop; returns the full `(progress, found)` callback
trace — `(5,0)` before the crawl, `(10, total)` after it, the per-candidate
calls, and the final `(100, found)` — plus the found count and error paths. -/
def scanForNodeModules (fs : FS) (linkFuel loopFuel : Nat) (now : Int)
    (opts : ScanOptions) (lazy : Bool) :
    List (Nat × Nat) × Nat × List Path :=
  let candidates := (dirsUnder fs opts.rootPath).filter
    (scanFilter opts.rootPath opts.maxDepth)
  let total := candidates.length
  let run := scanLoop fs linkFuel loopFuel now opts lazy total candidates 0
  ((5, 0) :: (10, total) :: run.1 ++ [(100, run.2.1)], run.2.1, run.2.2)

/-! ## `parseSize` (`src/utils.ts`)

`sizeStr.trim().toLowerCase().match(/^(\d+(?:\.\d+)?)\s*(b|kb|mb|gb|tb)?$/)`,
then `Math.floor(parseFloat(match[1]) * multiplier)`.  The regex is
deterministic on this input (each atom is followed by one it cannot absorb), so
it is translated to a sequential scan.  Arithmetic on the decimal literal is
exact rational arithmetic; the JS engine computes in binary floating point,
which agrees on inputs of ordinary magnitude. -/

/-- The whitespace class trimmed by `String.prototype.trim` / matched by
`\s`, restricted to its ASCII members. -/
def jsWhitespace (c : Char) : Bool :=
  c == ' ' || c == '\t' || c == '\n' || c == '\r' || c == '\x0b' || c == '\x0c'

/-- Models `sizeStr.trim().toLowerCase()` (ASCII lowering). -/
def jsNormalize (s : String) : List Char :=
  ((((s.toList.dropWhile jsWhitespace).reverse.dropWhile jsWhitespace).reverse).map
    Char.toLower)

/-- Value of a digit run read in base 10. -/
def digitsToNat (l : List Char) : Nat :=
  l.foldl (fun a c => a * 10 + (c.toNat - 48)) 0

/-- The unit-suffix alternation `(b|kb|mb|gb|tb)?` with its multiplier table
(`multipliers` in `src/utils.ts`; an absent unit defaults to `'b'`). -/
def unitTable : List (List Char × Nat) :=
  [([], 1), (['b'], 1), (['k', 'b'], 1024), (['m', 'b'], 1048576),
   (['g', 'b'], 1073741824), (['t', 'b'], 1099511627776)]

def unitMultiplier (u : List Char) : Option Nat :=
  (unitTable.find? fun e => e.1 = u).map (·.2)

/-- `Math.floor((I + F/10^k) * mult)` computed exactly over naturals, where
`I` is the integer digit run, `F` the fractional digit run of length `k`. -/
def sizeValue (intDs fracDs : List Char) (mult : Nat) : Nat :=
  (digitsToNat intDs * 10 ^ fracDs.length + digitsToNat fracDs) * mult
    / 10 ^ fracDs.length

/-- Models `parseSize` (`src/utils.ts`).  Total: every input yields `some` or
`none` (the JS function never throws — a failed `match` short-circuits to
`undefined`).  The regex group `(\d+(?:\.\d+)?)` is the leading digit run plus
a fractional part exactly when the next character is `'.'` followed by at
least one digit; then `\s*` and the optional unit must consume the rest. -/
def parseSize (sizeStr : String) : Option Nat :=
  let t := jsNormalize sizeStr
  let intDs := t.takeWhile Char.isDigit
  let rest1 := t.dropWhile Char.isDigit
  if intDs.isEmpty then none
  else if rest1.head? = some '.' then
    let fracDs := rest1.tail.takeWhile Char.isDigit
    if fracDs.isEmpty then none
    else
      (unitMultiplier ((rest1.tail.dropWhile Char.isDigit).dropWhile
        jsWhitespace)).map fun mult => sizeValue intDs fracDs mult
  else
    (unitMultiplier (rest1.dropWhile jsWhitespace)).map fun mult =>
      sizeValue intDs [] mult

/-- The spec's size-string format, written from its words: after trimming
surrounding whitespace and lowercasing, the string is a non-empty decimal
digit run, optionally followed by `'.'` and a non-empty digit run, then
optional whitespace, then an optional unit suffix from
`{b, kb, mb, gb, tb}`; the byte count is the decimal value times the unit's
multiplier, floored. -/
def SizeSpec (s : String) (n : Nat) : Prop :=
  ∃ (intDs fd wsp unit : List Char) (mult : Nat),
    jsNormalize s = intDs ++ fd ++ wsp ++ unit ∧
    intDs ≠ [] ∧ (∀ ch ∈ intDs, ch.isDigit = true) ∧
    (fd = [] ∨ ∃ fdd, fd = '.' :: fdd ∧ fdd ≠ [] ∧
      ∀ ch ∈ fdd, ch.isDigit = true) ∧
    (∀ ch ∈ wsp, jsWhitespace ch = true) ∧
    (unit, mult) ∈ unitTable ∧
    n = sizeValue intDs (fd.drop 1) mult

/-! ## Concrete filesystems used as witnesses and failing inputs -/

/-- A `node_modules` tree with one top-level package holding one 100-byte
file. -/
def fsOnePkg : FS :=
  [ (["", "nm"], FMeta.dir 0),
    (["", "nm", "lodash"], FMeta.dir 0),
    (["", "nm", "lodash", "index.js"], FMeta.file 100 0) ]

/-- A tree in which `/r/link` is a symbolic link to the sibling directory
`/r/sub`. -/
def fsWithLink : FS :=
  [ (["", "r"], FMeta.dir 0),
    (["", "r", "sub"], FMeta.dir 0),
    (["", "r", "sub", "f"], FMeta.file 7 0),
    (["", "r", "link"], FMeta.symlink ["", "r", "sub"]) ]

/-- Drop every symbolic-link entry of a filesystem. -/
def delink (fs : FS) : FS :=
  fs.filter fun e =>
    match e.2 with
    | FMeta.symlink _ => false
    | _ => true

/-- The nested tree of the C5 scenario:
`project/node_modules/pkg/node_modules/nested`. -/
def fsNested : FS :=
  [ (["", "project"], FMeta.dir 0),
    (["", "project", "node_modules"], FMeta.dir 0),
    (["", "project", "node_modules", "pkg"], FMeta.dir 0),
    (["", "project", "node_modules", "pkg", "node_modules"], FMeta.dir 0),
    (["", "project", "node_modules", "pkg", "node_modules", "nested"], FMeta.dir 0) ]

/-- A project with a non-empty `node_modules`, for deletion scenarios. -/
def fsProject : FS :=
  [ (["", "p"], FMeta.dir 0),
    (["", "p", "node_modules"], FMeta.dir 0),
    (["", "p", "node_modules", "lodash"], FMeta.dir 0) ]

/-- A selected entry backed by `/p/node_modules` of `fsProject`. -/
def entryP : NodeModulesInfo :=
  { path := ["", "p", "node_modules"], projectPath := ["", "p"],
    projectName := "p", sizeBytes := 100, packageCount := 1,
    totalPackageCount := 1, lastModified := 0, selected := true,
    isFavorite := false }

/-- A selected entry whose path does not even end in the `node_modules`
suffix. -/
def entryBadPath : NodeModulesInfo :=
  { path := ["", "tmp", "stuff"], projectPath := ["", "tmp"],
    projectName := "stuff", sizeBytes := 7, packageCount := 0,
    totalPackageCount := 0, lastModified := 0, selected := true,
    isFavorite := false }

/-- A selected entry at `/tmp/fake_node_modules`: ends in the substring but
the segment is not `node_modules`. -/
def entryFake : NodeModulesInfo :=
  { path := ["", "tmp", "fake_node_modules"], projectPath := ["", "tmp"],
    projectName := "fake", sizeBytes := 7, packageCount := 0,
    totalPackageCount := 0, lastModified := 0, selected := true,
    isFavorite := false }

/-- A selected entry whose backing directory `/q/node_modules` is absent from
`fsProject`. -/
def entryGone : NodeModulesInfo :=
  { path := ["", "q", "node_modules"], projectPath := ["", "q"],
    projectName := "q", sizeBytes := 50, packageCount := 0,
    totalPackageCount := 0, lastModified := 0, selected := true,
    isFavorite := false }

/-- Remove a list of subtrees in order (the filesystem state after a sequence
of successful removals). -/
def rmAll (fs : FS) (qs : List Path) : FS := qs.foldl rmFS fs

/-- The number of depth-1 subdirectories of `root` whose name is not
dot-prefixed (the spec's `topLevelPackageCount`). -/
def specTopLevelPackageCount (fs : FS) (root : Path) : Nat :=
  ((childNames fs root).filter fun n =>
    (match lookupFS fs (root ++ [n]) with
     | some (FMeta.dir _) => true
     | _ => false)
      && !strStartsWith n "." && n != ".bin").length

/-! ## Helper lemmas -/

theorem charsHave_refl (l : List Char) : charsHave l l = true := by
  induction l with
  | nil => rfl
  | cons a t ih => simp [charsHave, ih]

theorem strContains_self (s : String) : strContains s s = true := by
  unfold strContains charsContain
  rw [charsHave_refl]
  rfl

/-- A path one of whose segments is literally the pattern contains the
pattern. -/
theorem pathContains_of_mem {p : Path} {pat : String} (h : pat ∈ p) :
    pathContains p pat = true := by
  unfold pathContains
  rw [List.any_eq_true]
  exact ⟨pat, h, strContains_self pat⟩

/-- Every branch of `deleteNodeModules` reports back the entry it was given. -/
theorem deleteNodeModules_nodeModules (fs : FS) (fuel : Nat) (now : Int)
    (nm : NodeModulesInfo) (opts : DeleteOptions) :
    (deleteNodeModules fs fuel now nm opts).1.nodeModules = nm := by
  unfold deleteNodeModules
  repeat' split
  all_goals rfl

/-- The deletion loop yields one detail per item, carrying that item. -/
theorem runDeletions_map_nodeModules (fuel : Nat) (now : Int)
    (opts : DeleteOptions) :
    ∀ (items : List NodeModulesInfo) (fs : FS),
      ((runDeletions fuel now opts fs items).1.map fun d => d.nodeModules) = items := by
  intro items
  induction items with
  | nil => intro fs; rfl
  | cons nm rest ih =>
    intro fs
    simp [runDeletions, ih, deleteNodeModules_nodeModules]

theorem runDeletions_length (fuel : Nat) (now : Int) (opts : DeleteOptions)
    (items : List NodeModulesInfo) (fs : FS) :
    (runDeletions fuel now opts fs items).1.length = items.length := by
  have h := runDeletions_map_nodeModules fuel now opts items fs
  calc (runDeletions fuel now opts fs items).1.length
      = ((runDeletions fuel now opts fs items).1.map fun d => d.nodeModules).length := by
        rw [List.length_map]
    _ = items.length := by rw [h]

/-- Splitting the deletion loop over an appended batch. -/
theorem runDeletions_append (fuel : Nat) (now : Int) (opts : DeleteOptions) :
    ∀ (xs ys : List NodeModulesInfo) (fs : FS),
      runDeletions fuel now opts fs (xs ++ ys) =
        ((runDeletions fuel now opts fs xs).1 ++
           (runDeletions fuel now opts (runDeletions fuel now opts fs xs).2 ys).1,
         (runDeletions fuel now opts (runDeletions fuel now opts fs xs).2 ys).2) := by
  intro xs
  induction xs with
  | nil => intro ys fs; rfl
  | cons nm rest ih =>
    intro ys fs
    simp [runDeletions, ih]

/-- A missing directory (that passes the suffix check) yields the
`Directory does not exist` failure and leaves the filesystem unchanged. -/
theorem deleteNodeModules_missing (fs : FS) (fuel : Nat) (now : Int)
    (nm : NodeModulesInfo) (opts : DeleteOptions)
    (hend : pathEndsWith nm.path "node_modules" = true)
    (hgone : fileExists fs fuel nm.path = false) :
    deleteNodeModules fs fuel now nm opts = (⟨nm, false, some msgNotExist⟩, fs) := by
  simp [deleteNodeModules, hend, hgone]

/-- With `isTopLevel` already cleared, one iteration body never increments
`packageCount`. -/
theorem sizeStep_packageCount_false (fs : FS) (lf : Nat) (dp p : Path)
    (stack : List Path) (acc : SizeAcc) :
    (sizeStep fs lf dp p stack acc false).1.packageCount = acc.packageCount := by
  unfold sizeStep
  cases hstat : statFS fs lf p with
  | none => rfl
  | some m =>
    cases m with
    | file sz mt => rfl
    | symlink t => rfl
    | dir mt =>
      simp only [Bool.false_eq_true, false_and, if_false]
      by_cases h : p ≠ dp ∧ countsAsPackage p = true <;> simp [h]

/-- Processing the root path itself never increments `packageCount`. -/
theorem sizeStep_packageCount_self (fs : FS) (lf : Nat) (dp : Path)
    (stack : List Path) (acc : SizeAcc) (isTop : Bool) :
    (sizeStep fs lf dp dp stack acc isTop).1.packageCount = acc.packageCount := by
  unfold sizeStep
  cases hstat : statFS fs lf dp with
  | none => rfl
  | some m =>
    cases m with
    | file sz mt => rfl
    | symlink t => rfl
    | dir mt =>
      simp only [ne_eq, not_true_eq_false, false_and, and_false, if_false]

/-- `packageCount` can never grow once `isTopLevel` is `false`. -/
theorem sizeLoop_packageCount_of_false (fs : FS) (lf : Nat) (dp : Path) :
    ∀ (fuel : Nat) (stack processed : List Path) (acc r : SizeAcc),
      sizeLoop fs lf dp fuel stack processed acc false = some r →
      r.packageCount = acc.packageCount := by
  intro fuel
  induction fuel with
  | zero =>
    intro stack processed acc r h
    cases stack with
    | nil =>
      simp only [sizeLoop, Option.some_inj] at h
      rw [← h]
    | cons p t => simp [sizeLoop] at h
  | succ n ih =>
    intro stack processed acc r h
    cases stack with
    | nil =>
      simp only [sizeLoop, Option.some_inj] at h
      rw [← h]
    | cons p t =>
      rw [sizeLoop] at h
      by_cases hp : p ∈ processed
      · rw [if_pos hp] at h
        exact ih t processed acc r h
      · rw [if_neg hp] at h
        simp only [ite_self] at h
        have hrec := ih _ _ _ _ h
        rw [hrec, sizeStep_packageCount_false]

/-- The fallback estimator's `packageCount` is always `0`: the first worklist
iteration processes the root itself (which is not counted) and then clears the
`isTopLevel` flag for good. -/
theorem calculateDirectorySize_packageCount (fs : FS) (lf loopFuel : Nat)
    (p : Path) (r : SizeAcc)
    (h : calculateDirectorySize fs lf loopFuel p = some r) :
    r.packageCount = 0 := by
  unfold calculateDirectorySize at h
  cases loopFuel with
  | zero => simp [sizeLoop] at h
  | succ n =>
    rw [sizeLoop] at h
    rw [if_neg (List.not_mem_nil p)] at h
    rw [if_pos rfl] at h
    have hrec := sizeLoop_packageCount_of_false fs lf p n _ _ _ _ h
    rw [hrec, sizeStep_packageCount_self]



theorem getLast_cons_cons_concat {α : Type} (a b : α) (l : List α) (x : α) :
    (a :: b :: (l ++ [x])).getLast? = some x := by
  rw [show a :: b :: (l ++ [x]) = (a :: b :: l) ++ [x] by simp]
  exact List.getLast?_concat _

theorem round90_mono (total : Nat) {a b : Nat} (h : a ≤ b) :
    round90 a total ≤ round90 b total :=
  Nat.div_le_div_right (Nat.add_le_add_right (Nat.mul_le_mul_left 180 h) total)

theorem round90_le_90 {len total : Nat} (hlen : len ≤ total) (ht : 0 < total) :
    round90 len total ≤ 90 := by
  unfold round90
  have h := (Nat.div_lt_iff_lt_mul (show 0 < 2 * total by omega)).mpr
    (show 180 * len + total < 91 * (2 * total) by omega)
  omega

theorem round90_zero {total : Nat} (ht : 0 < total) : round90 0 total = 0 := by
  unfold round90
  exact Nat.div_eq_of_lt (by omega)

/-- The percentages issued by the analysis loop, bracketed below by the
percentage for the running count and above by the final `100`, form a
non-decreasing chain. -/
theorem scanLoop_chain (fs : FS) (lf tf : Nat) (now : Int) (opts : ScanOptions)
    (lazy : Bool) (total : Nat) (ht : 0 < total) :
    ∀ (cs : List Path) (len : Nat), len + cs.length ≤ total →
      List.Chain' (fun a b : Nat => a ≤ b)
        ((10 + round90 len total) ::
          (((scanLoop fs lf tf now opts lazy total cs len).1.map fun x => x.1) ++
            [100])) := by
  intro cs
  induction cs with
  | nil =>
    intro len hlen
    simp only [scanLoop, List.map_nil, List.nil_append]
    have h90 := round90_le_90 (show len ≤ total by omega) ht
    exact List.chain'_pair.mpr (by omega)
  | cons c cs ih =>
    intro len hlen
    rw [scanLoop]
    cases han : analyzeNodeModules fs lf tf c lazy with
    | none =>
      simp only
      have hlen2 : len + cs.length ≤ total := by
        simp only [List.length_cons] at hlen
        omega
      exact ih len hlen2
    | some v =>
      obtain ⟨size, mt⟩ := v
      simp only
      have hle : len ≤ if lazy || passesScanFilters opts now size mt then len + 1
          else len := by split <;> omega
      have hle2 : (if lazy || passesScanFilters opts now size mt then len + 1
          else len) + cs.length ≤ total := by
        simp only [List.length_cons] at hlen
        split <;> omega
      have hch := ih _ hle2
      simp only [List.map_cons, List.cons_append]
      exact List.Chain'.cons (by have := round90_mono total hle; omega) hch

theorem deletionTrace_chain (total : Nat) :
    ∀ (l : List NodeModulesInfo) (i : Nat),
      List.Chain' (fun a b : Nat × Nat × String => a.1 ≤ b.1)
        (deletionTrace total i l) := by
  intro l
  induction l with
  | nil => intro i; exact List.chain'_nil
  | cons nm rest ih =>
    intro i
    rw [deletionTrace]
    cases rest with
    | nil => simp [deletionTrace]
    | cons nm2 rest2 =>
      rw [deletionTrace]
      refine List.Chain'.cons (by omega) ?_
      have h := ih (i + 1)
      rw [deletionTrace] at h
      exact h

theorem deletionTrace_mem_total (total : Nat) :
    ∀ (l : List NodeModulesInfo) (i : Nat) (x : Nat × Nat × String),
      x ∈ deletionTrace total i l → x.2.1 = total := by
  intro l
  induction l with
  | nil => intro i x hx; simp [deletionTrace] at hx
  | cons nm rest ih =>
    intro i x hx
    rw [deletionTrace, List.mem_cons] at hx
    cases hx with
    | inl h => rw [h]
    | inr h => exact ih (i + 1) x h

theorem deletionTrace_last (total : Nat) :
    ∀ (l : List NodeModulesInfo) (i : Nat) (x : Nat × Nat × String),
      (deletionTrace total i l).getLast? = some x → x.1 = i + l.length := by
  intro l
  induction l with
  | nil => intro i x hx; simp [deletionTrace] at hx
  | cons nm rest ih =>
    intro i x hx
    rw [deletionTrace] at hx
    cases rest with
    | nil =>
      simp only [deletionTrace, List.getLast?_singleton, Option.some_inj] at hx
      rw [← hx]
      simp
    | cons nm2 rest2 =>
      rw [deletionTrace, List.getLast?_cons_cons, ← deletionTrace] at hx
      have h := ih (i + 1) x hx
      simp only [List.length_cons] at h ⊢
      omega

theorem pathUnder_iff (q p : Path) : pathUnder q p = true ↔ ∃ r, p = q ++ r := by
  induction q generalizing p with
  | nil =>
    simp only [pathUnder, List.nil_append, true_iff]
    exact ⟨p, rfl⟩
  | cons a q ih =>
    cases p with
    | nil =>
      simp only [pathUnder, Bool.false_eq_true, false_iff, not_exists]
      intro r h
      exact absurd h (by simp)
    | cons b p =>
      simp only [pathUnder, Bool.and_eq_true, beq_iff_eq, ih]
      constructor
      · rintro ⟨rfl, r, rfl⟩
        exact ⟨r, rfl⟩
      · rintro ⟨r, h⟩
        injection h with h1 h2
        exact ⟨h1.symm, r, h2⟩

theorem pathUnder_refl (p : Path) : pathUnder p p = true :=
  (pathUnder_iff p p).mpr ⟨[], by simp⟩

theorem pathUnder_extend {q p : Path} (h : pathUnder q p = true) (r : Path) :
    pathUnder q (p ++ r) = true := by
  rcases (pathUnder_iff _ _).mp h with ⟨s, rfl⟩
  exact (pathUnder_iff _ _).mpr ⟨s ++ r, by simp⟩

theorem pathUnder_dropLast {q p : Path} (h : pathUnder q p.dropLast = true) :
    pathUnder q p = true := by
  by_cases hpn : p = []
  · subst hpn
    simp only [List.dropLast_nil] at h
    rcases (pathUnder_iff _ _).mp h with ⟨s, hs⟩
    cases q with
    | nil => rfl
    | cons x xs => exact absurd hs.symm (by simp)
  · have hsplit := List.dropLast_append_getLast hpn
    calc pathUnder q p
        = pathUnder q (p.dropLast ++ [p.getLast hpn]) := by rw [hsplit]
      _ = true := pathUnder_extend h _

theorem pathUnder_snoc {q xs : Path} {n : String}
    (h : pathUnder q (xs ++ [n]) = true) :
    pathUnder q xs = true ∨ q = xs ++ [n] := by
  rcases (pathUnder_iff _ _).mp h with ⟨r, hr⟩
  induction r using List.reverseRecOn with
  | nil =>
    right
    rw [hr]
    simp
  | append_singleton r' m _ =>
    left
    rw [← List.append_assoc] at hr
    rcases List.append_inj' hr rfl with ⟨h1, _⟩
    exact (pathUnder_iff _ _).mpr ⟨r', h1⟩

/-- Looking a path up after removing the subtree at `q`. -/
theorem lookupFS_rmFS (fs : FS) (q p : Path) :
    lookupFS (rmFS fs q) p =
      if pathUnder q p = true then none else lookupFS fs p := by
  induction fs with
  | nil => simp [rmFS, lookupFS, ite_self]
  | cons e fs ih =>
    by_cases hq : pathUnder q e.1 = true
    · have hL : rmFS (e :: fs) q = rmFS fs q := by
        simp [rmFS, List.filter_cons, hq]
      rw [hL, ih]
      by_cases hup : pathUnder q p = true
      · rw [if_pos hup, if_pos hup]
      · have hne : e.1 ≠ p := fun hh => hup (hh ▸ hq)
        rw [if_neg hup, if_neg hup, lookupFS, if_neg hne]
    · have hL : rmFS (e :: fs) q = e :: rmFS fs q := by
        simp [rmFS, List.filter_cons, hq]
      rw [hL]
      by_cases hep : e.1 = p
      · have hup : ¬ pathUnder q p = true := by rw [← hep]; exact hq
        rw [lookupFS, if_pos hep, if_neg hup, lookupFS, if_pos hep]
      · rw [lookupFS, if_neg hep, ih]
        by_cases hup : pathUnder q p = true
        · rw [if_pos hup, if_pos hup]
        · rw [if_neg hup, if_neg hup, lookupFS, if_neg hep]

theorem noLinks_cons {e : Path × FMeta} {fs : FS}
    (h : noLinks (e :: fs) = true) : noLinks fs = true := by
  rw [noLinks, List.all_cons, Bool.and_eq_true] at h
  exact h.2

theorem noLinks_rmFS {fs : FS} (h : noLinks fs = true) (q : Path) :
    noLinks (rmFS fs q) = true := by
  induction fs with
  | nil => rfl
  | cons e fs ih =>
    rw [rmFS, List.filter_cons]
    have h2 := noLinks_cons h
    split
    · rw [noLinks, List.all_cons, Bool.and_eq_true]
      refine ⟨?_, ih h2⟩
      rw [noLinks, List.all_cons, Bool.and_eq_true] at h
      exact h.1
    · exact ih h2

theorem lookupFS_noLinks {fs : FS} (h : noLinks fs = true) (p : Path)
    (t : Path) : lookupFS fs p ≠ some (FMeta.symlink t) := by
  induction fs with
  | nil => simp [lookupFS]
  | cons e fs ih =>
    rw [lookupFS]
    split
    · intro hc
      rw [noLinks, List.all_cons, Bool.and_eq_true] at h
      have := h.1
      rw [Option.some_inj] at hc
      rw [hc] at this
      simp at this
    · exact ih (noLinks_cons h)

/-- Without symbolic links, canonicalisation is the identity whenever the
fuel exceeds the number of remaining components. -/
theorem canonFrom_noLinks {fs : FS} (h : noLinks fs = true) :
    ∀ (rest : Path) (fuel : Nat) (acc : Path), rest.length < fuel →
      canonFrom fs fuel acc rest = some (acc ++ rest) := by
  intro rest
  induction rest with
  | nil =>
    intro fuel acc hf
    cases fuel with
    | zero => omega
    | succ n => simp [canonFrom]
  | cons s rest ih =>
    intro fuel acc hf
    cases fuel with
    | zero => omega
    | succ n =>
      rw [canonFrom]
      cases hl : lookupFS fs (acc ++ [s]) with
      | none =>
        simp only
        rw [ih n (acc ++ [s]) (by simp at hf ⊢; omega)]
        simp
      | some m =>
        cases m with
        | file sz mt =>
          simp only
          rw [ih n (acc ++ [s]) (by simp at hf ⊢; omega)]
          simp
        | dir mt =>
          simp only
          rw [ih n (acc ++ [s]) (by simp at hf ⊢; omega)]
          simp
        | symlink t => exact absurd hl (lookupFS_noLinks h _ t)

theorem statFS_noLinks {fs : FS} (h : noLinks fs = true) (fuel : Nat)
    (p : Path) (hf : p.length < fuel) : statFS fs fuel p = lookupFS fs p := by
  rw [statFS, canonPath, canonFrom_noLinks h p fuel [] hf]
  simp

theorem fileExists_noLinks {fs : FS} (h : noLinks fs = true) (fuel : Nat)
    (p : Path) (hf : p.length < fuel) :
    fileExists fs fuel p = (lookupFS fs p).isSome := by
  rw [fileExists, statFS_noLinks h fuel p hf]

theorem readdirFS_noLinks {fs : FS} (h : noLinks fs = true) (fuel : Nat)
    (p : Path) (hf : p.length < fuel) :
    readdirFS fs fuel p =
      match lookupFS fs p with
      | some (FMeta.dir _) => some (childNames fs p)
      | _ => none := by
  rw [readdirFS, canonPath, canonFrom_noLinks h p fuel [] hf]
  rfl

/-- Removing a subtree that neither contains nor is contained in `cp` keeps
`cp`'s own children intact. -/
theorem childNames_rmFS (fs : FS) (q cp : Path)
    (h1 : pathUnder q cp = false) (h2 : pathUnder cp q = false) :
    childNames (rmFS fs q) cp = childNames fs cp := by
  induction fs with
  | nil => rfl
  | cons e fs ih =>
    by_cases hq : pathUnder q e.1 = true
    · have hcond : ¬ (e.1.dropLast = cp ∧ e.1 ≠ cp) := by
        rintro ⟨hd, hne⟩
        have hene : e.1 ≠ [] := by
          intro hnil
          rw [hnil] at hd
          simp only [List.dropLast_nil] at hd
          exact hne (by rw [hnil, ← hd])
        have hsplit := List.dropLast_append_getLast hene
        rw [hd] at hsplit
        rw [← hsplit] at hq
        rcases pathUnder_snoc hq with hu | hu
        · rw [h1] at hu
          exact absurd hu (by simp)
        · have hcq : pathUnder cp q = true := by
            rw [hu]
            exact pathUnder_extend (pathUnder_refl cp) _
          rw [h2] at hcq
          exact absurd hcq (by simp)
      have hL : rmFS (e :: fs) q = rmFS fs q := by
        simp [rmFS, List.filter_cons, hq]
      rw [hL, ih]
      show childNames fs cp = List.filterMap _ (e :: fs)
      rw [List.filterMap_cons, if_neg hcond]
      rfl
    · have hL : rmFS (e :: fs) q = e :: rmFS fs q := by
        simp [rmFS, List.filter_cons, hq]
      rw [hL]
      show List.filterMap _ (e :: rmFS fs q) = List.filterMap _ (e :: fs)
      rw [List.filterMap_cons, List.filterMap_cons]
      cases hfa : (if e.1.dropLast = cp ∧ e.1 ≠ cp then e.1.getLast? else none) with
      | none => simpa using ih
      | some b =>
        have ih2 : List.filterMap
            (fun e : Path × FMeta =>
              if e.1.dropLast = cp ∧ e.1 ≠ cp then e.1.getLast? else none)
            (rmFS fs q) =
          List.filterMap
            (fun e : Path × FMeta =>
              if e.1.dropLast = cp ∧ e.1 ≠ cp then e.1.getLast? else none) fs := ih
        simp only [ih2]

theorem pathEndsWith_concat (xs : Path) (n : String) (sfx : String) :
    pathEndsWith (xs ++ [n]) sfx = strEndsWith n sfx := by
  simp only [pathEndsWith, List.getLast?_concat]

theorem under_false_child {q p : Path} (n : String)
    (hq1 : pathUnder q p = false) (hq2 : pathUnder p q = false) :
    pathUnder q (p ++ [n]) = false := by
  by_contra hc
  rw [Bool.not_eq_false] at hc
  rcases pathUnder_snoc hc with hu | hu
  · rw [hq1] at hu
    exact absurd hu (by simp)
  · have hpq : pathUnder p q = true := by
      rw [hu]
      exact pathUnder_extend (pathUnder_refl p) _
    rw [hq2] at hpq
    exact absurd hpq (by simp)

theorem under_false_sibling {q p : Path} (s : String)
    (hq1 : pathUnder q p = false)
    (hqe : pathEndsWith q "node_modules" = true)
    (hs : strEndsWith s "node_modules" = false) :
    pathUnder q (pathDir p ++ [s]) = false := by
  by_contra hc
  rw [Bool.not_eq_false] at hc
  rcases pathUnder_snoc hc with hu | hu
  · have hup : pathUnder q p = true := pathUnder_dropLast hu
    rw [hq1] at hup
    exact absurd hup (by simp)
  · rw [hu, pathEndsWith_concat, hs] at hqe
    exact absurd hqe (by simp)

theorem statFS_rmFS_eq {fs : FS} (hnl : noLinks fs = true) (q r : Path)
    (fuel : Nat) (hr : r.length < fuel) (hu : pathUnder q r = false) :
    statFS (rmFS fs q) fuel r = statFS fs fuel r := by
  rw [statFS_noLinks (noLinks_rmFS hnl q) fuel r hr,
    statFS_noLinks hnl fuel r hr, lookupFS_rmFS, if_neg (by rw [hu]; simp)]

theorem fileExists_rm_eq {fs : FS} (hnl : noLinks fs = true) {q p : Path}
    (fuel : Nat) (hp : p.length < fuel) (hu : pathUnder q p = false) :
    fileExists (rmFS fs q) fuel p = fileExists fs fuel p := by
  rw [fileExists, fileExists, statFS_rmFS_eq hnl q p fuel hp hu]

theorem isDirFS_rm_eq {fs : FS} (hnl : noLinks fs = true) {q r : Path}
    (fuel : Nat) (hr : r.length < fuel) (hu : pathUnder q r = false) :
    isDirFS (rmFS fs q) fuel r = isDirFS fs fuel r := by
  rw [isDirFS, isDirFS, statFS_rmFS_eq hnl q r fuel hr hu]

theorem statFS_rm_sibling {fs : FS} (hnl : noLinks fs = true) {q p : Path}
    (fuel : Nat) (s : String) (hfuel : p.length + 2 ≤ fuel)
    (hq1 : pathUnder q p = false)
    (hqe : pathEndsWith q "node_modules" = true)
    (hs : strEndsWith s "node_modules" = false) :
    statFS (rmFS fs q) fuel (pathDir p ++ [s]) =
      statFS fs fuel (pathDir p ++ [s]) := by
  apply statFS_rmFS_eq hnl
  · have hd := List.length_dropLast p
    simp only [pathDir, List.length_append, List.length_cons, List.length_nil]
    omega
  · exact under_false_sibling s hq1 hqe hs

theorem list_any_ext {α : Type} (l : List α) (f g : α → Bool)
    (h : ∀ a ∈ l, f a = g a) : l.any f = l.any g := by
  induction l with
  | nil => rfl
  | cons a t ih =>
    rw [List.any_cons, List.any_cons, h a (List.mem_cons_self a t),
      ih fun b hb => h b (List.mem_cons_of_mem a hb)]

theorem inUse_rm_eq {fs : FS} (hnl : noLinks fs = true) {q p : Path}
    (fuel : Nat) (now : Int) (hfuel : p.length + 2 ≤ fuel)
    (hq1 : pathUnder q p = false)
    (hqe : pathEndsWith q "node_modules" = true) :
    isNodeModulesInUse (rmFS fs q) fuel now p =
      isNodeModulesInUse fs fuel now p := by
  rw [isNodeModulesInUse, isNodeModulesInUse]
  refine list_any_ext _ _ _ fun lf hlf => ?_
  have hs : strEndsWith lf "node_modules" = false := by
    simp only [lockFileNames, List.mem_cons, List.not_mem_nil, or_false] at hlf
    rcases hlf with rfl | rfl | rfl <;> decide
  rw [statFS_rm_sibling hnl fuel lf hfuel hq1 hqe hs]

theorem verify_rm_eq {fs : FS} (hnl : noLinks fs = true) {q p : Path}
    (fuel : Nat) (hfuel : p.length + 2 ≤ fuel)
    (hq1 : pathUnder q p = false) (hq2 : pathUnder p q = false)
    (hqe : pathEndsWith q "node_modules" = true) :
    verifyNodeModules (rmFS fs q) fuel p = verifyNodeModules fs fuel p := by
  rw [verifyNodeModules, verifyNodeModules]
  by_cases hb : pathBase p ≠ some "node_modules"
  · rw [if_pos hb, if_pos hb]
  · rw [if_neg hb, if_neg hb]
    have hrd : readdirFS (rmFS fs q) fuel p = readdirFS fs fuel p := by
      rw [readdirFS_noLinks (noLinks_rmFS hnl q) fuel p (by omega),
        readdirFS_noLinks hnl fuel p (by omega),
        lookupFS_rmFS, if_neg (by rw [hq1]; simp),
        childNames_rmFS fs q p hq1 hq2]
    rw [hrd]
    cases hentries : readdirFS fs fuel p with
    | none => rfl
    | some entries =>
      simp only
      have hsub : (entries.any fun n => isDirFS (rmFS fs q) fuel (p ++ [n])) =
          entries.any fun n => isDirFS fs fuel (p ++ [n]) := by
        refine list_any_ext _ _ _ fun n _ => ?_
        refine isDirFS_rm_eq hnl fuel ?_ (under_false_child n hq1 hq2)
        simp only [List.length_append, List.length_cons, List.length_nil]
        omega
      rw [hsub]
      by_cases hpp : pathBase p = some "node_modules" ∧ 2 ≤ p.length
      · rw [if_pos hpp]
        have hpj : fileExists (rmFS fs q) fuel (p.dropLast ++ ["package.json"]) =
            fileExists fs fuel (p.dropLast ++ ["package.json"]) := by
          rw [fileExists, fileExists]
          exact congrArg Option.isSome
            (statFS_rm_sibling hnl fuel "package.json" hfuel hq1 hqe (by decide))
        rw [hpj]
      · rw [if_neg hpp]
        have hpj : fileExists (rmFS fs q) fuel (p ++ ["package.json"]) =
            fileExists fs fuel (p ++ ["package.json"]) := by
          refine fileExists_rm_eq hnl fuel ?_ (under_false_child _ hq1 hq2)
          simp only [List.length_append, List.length_cons, List.length_nil]
          omega
        rw [hpj]

theorem noLinks_rmAll {fs : FS} (hnl : noLinks fs = true) :
    ∀ (qs : List Path), noLinks (rmAll fs qs) = true := by
  intro qs
  induction qs generalizing fs with
  | nil => exact hnl
  | cons q qs ih => exact ih (noLinks_rmFS hnl q)

/-- All three filesystem-dependent safety checks are unchanged by removing any
set of subtrees that are path-incomparable with `p` and end in the
`node_modules` suffix. -/
theorem checks_rmAll_eq {fs : FS} (hnl : noLinks fs = true) (fuel : Nat)
    (now : Int) :
    ∀ (qs : List Path) (p : Path),
      p.length + 2 ≤ fuel →
      (∀ q ∈ qs, pathEndsWith q "node_modules" = true ∧
        pathUnder q p = false ∧ pathUnder p q = false) →
      fileExists (rmAll fs qs) fuel p = fileExists fs fuel p ∧
      isNodeModulesInUse (rmAll fs qs) fuel now p =
        isNodeModulesInUse fs fuel now p ∧
      verifyNodeModules (rmAll fs qs) fuel p = verifyNodeModules fs fuel p := by
  intro qs
  induction qs generalizing fs with
  | nil => intro p _ _; exact ⟨rfl, rfl, rfl⟩
  | cons q qs ih =>
    intro p hfuel hqs
    have hq := hqs q (List.mem_cons_self q qs)
    have hrest : ∀ q' ∈ qs, pathEndsWith q' "node_modules" = true ∧
        pathUnder q' p = false ∧ pathUnder p q' = false :=
      fun q' hq' => hqs q' (List.mem_cons_of_mem q hq')
    have hih := ih (noLinks_rmFS hnl q) p hfuel hrest
    refine ⟨?_, ?_, ?_⟩
    · rw [show rmAll fs (q :: qs) = rmAll (rmFS fs q) qs from rfl, hih.1,
        fileExists_rm_eq hnl fuel (by omega) hq.2.1]
    · rw [show rmAll fs (q :: qs) = rmAll (rmFS fs q) qs from rfl, hih.2.1,
        inUse_rm_eq hnl fuel now hfuel hq.2.1 hq.1]
    · rw [show rmAll fs (q :: qs) = rmAll (rmFS fs q) qs from rfl, hih.2.2,
        verify_rm_eq hnl fuel hfuel hq.2.1 hq.2.2 hq.1]

theorem rmAll_snoc (fs : FS) (qs : List Path) (p : Path) :
    rmAll fs (qs ++ [p]) = rmFS (rmAll fs qs) p := by
  rw [rmAll, List.foldl_append]
  rfl

/-- A dry-run deletion never changes the filesystem, whatever checks pass. -/
theorem deleteNodeModules_dry_fs (fs : FS) (fuel : Nat) (now : Int)
    (nm : NodeModulesInfo) (f c : Bool) :
    (deleteNodeModules fs fuel now nm ⟨true, f, c⟩).2 = fs := by
  unfold deleteNodeModules
  repeat' split
  all_goals first
    | rfl
    | exact absurd rfl (by assumption)

theorem runDeletions_dry_fs (fuel : Nat) (now : Int) (f c : Bool) :
    ∀ (items : List NodeModulesInfo) (fs : FS),
      (runDeletions fuel now ⟨true, f, c⟩ fs items).2 = fs := by
  intro items
  induction items with
  | nil => intro fs; rfl
  | cons nm rest ih =>
    intro fs
    rw [runDeletions]
    dsimp only
    rw [deleteNodeModules_dry_fs, ih]

theorem deleteNodeModules_success_endsWith {fs : FS} {fuel : Nat} {now : Int}
    {nm : NodeModulesInfo} {opts : DeleteOptions}
    (h : (deleteNodeModules fs fuel now nm opts).1.success = true) :
    pathEndsWith nm.path "node_modules" = true := by
  by_contra hc
  rw [Bool.not_eq_true] at hc
  simp [deleteNodeModules, hc] at h

/-- A single deletion in a real run, starting from the filesystem after the
removals `qs` (all disjoint from this entry), succeeds exactly when the
dry-run deletion on the original filesystem does, and removes this entry's
subtree exactly on success. -/
theorem deleteNodeModules_dry_real (fs : FS) (fuel : Nat) (now : Int)
    (nm : NodeModulesInfo) (f c : Bool) (qs : List Path)
    (hnl : noLinks fs = true)
    (hfuel : nm.path.length + 2 ≤ fuel)
    (hqs : ∀ q ∈ qs, pathEndsWith q "node_modules" = true ∧
      pathUnder q nm.path = false ∧ pathUnder nm.path q = false) :
    (deleteNodeModules (rmAll fs qs) fuel now nm ⟨false, f, c⟩).1.success =
      (deleteNodeModules fs fuel now nm ⟨true, f, c⟩).1.success ∧
    (deleteNodeModules (rmAll fs qs) fuel now nm ⟨false, f, c⟩).2 =
      (if (deleteNodeModules fs fuel now nm ⟨true, f, c⟩).1.success = true
       then rmAll fs (qs ++ [nm.path]) else rmAll fs qs) := by
  obtain ⟨hex, hin, hver⟩ := checks_rmAll_eq hnl fuel now qs nm.path hfuel hqs
  rw [rmAll_snoc]
  constructor <;>
  · simp only [deleteNodeModules, hex, hin, hver]
    split_ifs <;> first | rfl | simp_all

/-- The deletion loop in dry-run mode yields the same per-entry success flags
(with the same entry back-references) as the real run started after any prior
disjoint removals, provided the processed entries are pairwise
path-incomparable. -/
theorem runDeletions_dry_real (fuel : Nat) (now : Int) (f c : Bool) :
    ∀ (items : List NodeModulesInfo) (qs : List Path) (fs : FS),
      noLinks fs = true →
      (∀ nm ∈ items, nm.path.length + 2 ≤ fuel) →
      (∀ q ∈ qs, pathEndsWith q "node_modules" = true ∧
        ∀ nm ∈ items, pathUnder q nm.path = false ∧
          pathUnder nm.path q = false) →
      List.Pairwise (fun a b => pathUnder a.path b.path = false ∧
        pathUnder b.path a.path = false) items →
      ((runDeletions fuel now ⟨true, f, c⟩ fs items).1.map
          fun d => (d.success, d.nodeModules)) =
        ((runDeletions fuel now ⟨false, f, c⟩ (rmAll fs qs) items).1.map
          fun d => (d.success, d.nodeModules)) := by
  intro items
  induction items with
  | nil => intro qs fs _ _ _ _; rfl
  | cons nm rest ih =>
    intro qs fs hnl hfuel hqs hpw
    have hmem : nm ∈ nm :: rest := List.mem_cons_self nm rest
    have hd := deleteNodeModules_dry_real fs fuel now nm f c qs hnl
      (hfuel nm hmem) fun q hq => ⟨(hqs q hq).1, (hqs q hq).2 nm hmem⟩
    rw [runDeletions, runDeletions]
    dsimp only
    rw [List.map_cons, List.map_cons]
    congr 1
    · rw [deleteNodeModules_nodeModules, deleteNodeModules_nodeModules, hd.1]
    · rw [deleteNodeModules_dry_fs, hd.2]
      by_cases hs :
          (deleteNodeModules fs fuel now nm ⟨true, f, c⟩).1.success = true
      · rw [if_pos hs]
        refine ih (qs ++ [nm.path]) fs hnl
          (fun x hx => hfuel x (List.mem_cons_of_mem _ hx)) ?_
          ((List.pairwise_cons.mp hpw).2)
        intro q hq
        rcases List.mem_append.mp hq with hq | hq
        · exact ⟨(hqs q hq).1,
            fun x hx => (hqs q hq).2 x (List.mem_cons_of_mem _ hx)⟩
        · have hqnm : q = nm.path := List.mem_singleton.mp hq
          subst hqnm
          refine ⟨deleteNodeModules_success_endsWith hs, ?_⟩
          intro x hx
          exact (List.pairwise_cons.mp hpw).1 x hx
      · rw [if_neg hs]
        exact ih qs fs hnl
          (fun x hx => hfuel x (List.mem_cons_of_mem _ hx))
          (fun q hq => ⟨(hqs q hq).1,
            fun x hx => (hqs q hq).2 x (List.mem_cons_of_mem _ hx)⟩)
          ((List.pairwise_cons.mp hpw).2)

theorem mem_takeWhile_pred {α : Type} (p : α → Bool) :
    ∀ (l : List α) (a : α), a ∈ l.takeWhile p → p a = true := by
  intro l
  induction l with
  | nil => intro a ha; simp at ha
  | cons b t ih =>
    intro a ha
    rw [List.takeWhile_cons] at ha
    cases hp : p b with
    | true =>
      rw [hp] at ha
      cases ha with
      | head => exact hp
      | tail c hmem => exact ih a hmem
    | false =>
      rw [hp] at ha
      simp at ha

/-- Splitting `takeWhile`/`dropWhile` at a known boundary. -/
theorem charsSplit (p : Char → Bool) :
    ∀ (xs ys : List Char), (∀ a ∈ xs, p a = true) →
      (ys = [] ∨ ∃ y ys', ys = y :: ys' ∧ p y = false) →
      (xs ++ ys).takeWhile p = xs ∧ (xs ++ ys).dropWhile p = ys := by
  intro xs
  induction xs with
  | nil =>
    intro ys _ hy
    rcases hy with rfl | ⟨y, ys', rfl, hpy⟩
    · exact ⟨rfl, rfl⟩
    · simp only [List.nil_append, List.takeWhile_cons, List.dropWhile_cons, hpy]
      exact ⟨rfl, rfl⟩
  | cons a xs ih =>
    intro ys hx hy
    have hpa : p a = true := hx a (List.mem_cons_self a xs)
    have hih := ih ys (fun b hb => hx b (List.mem_cons_of_mem a hb)) hy
    simp [List.cons_append, List.takeWhile_cons, List.dropWhile_cons, hpa,
      hih.1, hih.2]

theorem unitMultiplier_mem {u : List Char} {m : Nat}
    (h : (u, m) ∈ unitTable) : unitMultiplier u = some m := by
  simp only [unitTable, List.mem_cons, List.not_mem_nil, or_false] at h
  rcases h with h | h | h | h | h | h <;>
    (rw [Prod.mk.injEq] at h; obtain ⟨rfl, rfl⟩ := h; rfl)

theorem unitMultiplier_some {u : List Char} {m : Nat}
    (h : unitMultiplier u = some m) : (u, m) ∈ unitTable := by
  rw [unitMultiplier] at h
  cases hf : unitTable.find? fun e => e.1 = u with
  | none => rw [hf] at h; simp at h
  | some a =>
    rw [hf] at h
    simp only [Option.map_some', Option.some_inj] at h
    have hp := List.find?_some hf
    have hm := List.mem_of_find?_eq_some hf
    have ha1 : a.1 = u := of_decide_eq_true hp
    rw [← ha1, ← h]
    exact hm

/-- A unit suffix is empty or starts with a letter that is no digit, no
whitespace and not `'.'`. -/
theorem unit_shape {u : List Char} {m : Nat} (h : (u, m) ∈ unitTable) :
    u = [] ∨ ∃ y ys, u = y :: ys ∧ y.isDigit = false ∧
      jsWhitespace y = false ∧ y ≠ '.' := by
  simp only [unitTable, List.mem_cons, List.not_mem_nil, or_false] at h
  rcases h with h | h | h | h | h | h <;>
    (rw [Prod.mk.injEq] at h; obtain ⟨rfl, _⟩ := h) <;>
    first
      | exact Or.inl rfl
      | exact Or.inr ⟨_, _, rfl, by decide, by decide, by decide⟩

theorem jsWhitespace_cases {ch : Char} (h : jsWhitespace ch = true) :
    ch.isDigit = false ∧ ch ≠ '.' := by
  simp only [jsWhitespace, Bool.or_eq_true, beq_iff_eq] at h
  rcases h with ((((rfl | rfl) | rfl) | rfl) | rfl) | rfl <;> exact ⟨rfl, by decide⟩

/-! ## The claims -/

/-- C1: an entry whose `path` does not end in `node_modules` (string suffix
check) is rejected by the first safety check of `deleteNodeModules` with the
"does not appear to be a node_modules directory" reason, and the filesystem is
returned unchanged — no removal is attempted — whatever the `dryRun`, `force`
and `checkRunningProcesses` options are. -/
theorem claim_C1 (fs : FS) (fuel : Nat) (now : Int) (nm : NodeModulesInfo)
    (opts : DeleteOptions)
    (h : pathEndsWith nm.path "node_modules" = false) :
    deleteNodeModules fs fuel now nm opts =
      (⟨nm, false, some msgNotNodeModules⟩, fs) := by
  simp [deleteNodeModules, h]



theorem claim_C1_witness :
    deleteNodeModules fsProject 10 0 entryBadPath ⟨false, true, true⟩ =
      (⟨entryBadPath, false, some msgNotNodeModules⟩, fsProject) :=
  claim_C1 fsProject 10 0 entryBadPath ⟨false, true, true⟩ (by decide)

/-- Equal success flags with equal entry back-references give equal
`bytesFreed` sums. -/
theorem bytesFreed_of_sig :
    ∀ (ds1 ds2 : List DeletionDetail),
      (ds1.map fun d => (d.success, d.nodeModules)) =
        (ds2.map fun d => (d.success, d.nodeModules)) →
      ((ds1.filter fun d => d.success).map fun d => d.nodeModules.sizeBytes).sum =
        ((ds2.filter fun d => d.success).map fun d => d.nodeModules.sizeBytes).sum := by
  intro ds1
  induction ds1 with
  | nil =>
    intro ds2 h
    rw [List.map_nil] at h
    rw [List.map_eq_nil_iff.mp h.symm]
  | cons d t ih =>
    intro ds2 h
    cases ds2 with
    | nil => simp at h
    | cons d2 t2 =>
      rw [List.map_cons, List.map_cons] at h
      injection h with h1 h2
      have hs : d.success = d2.success := congrArg Prod.fst h1
      have hn : d.nodeModules = d2.nodeModules := congrArg Prod.snd h1
      rw [List.filter_cons, List.filter_cons, ← hs]
      cases hds : d.success with
      | true => simp [hds, hn, ih t2 h2]
      | false => simp [hds, ih t2 h2]

/-- C2, amended: a dry run never changes the filesystem; and when the selected
entries back pairwise path-incomparable directories (no duplicates, none
nested inside another) on a link-free filesystem — with removal modelled as
always succeeding — the dry run reports the same `bytesFreed` as the real run
over the same selection. -/
theorem claim_C2_amended (fs : FS) (fuel : Nat) (now : Int) (f c : Bool)
    (entries : List NodeModulesInfo)
    (hnl : noLinks fs = true)
    (hfuel : ∀ nm ∈ entries, nm.path.length + 2 ≤ fuel)
    (hdisj : List.Pairwise (fun a b => pathUnder a.path b.path = false ∧
      pathUnder b.path a.path = false) (entries.filter fun nm => nm.selected)) :
    (deleteSelectedNodeModules fs fuel now entries ⟨true, f, c⟩).2.1 = fs ∧
    (deleteSelectedNodeModules fs fuel now entries ⟨true, f, c⟩).1.bytesFreed =
      (deleteSelectedNodeModules fs fuel now entries ⟨false, f, c⟩).1.bytesFreed := by
  constructor
  · show (runDeletions fuel now ⟨true, f, c⟩ fs
      (entries.filter fun nm => nm.selected)).2 = fs
    exact runDeletions_dry_fs fuel now f c _ fs
  · show (((runDeletions fuel now ⟨true, f, c⟩ fs
        (entries.filter fun nm => nm.selected)).1.filter
          fun d => d.success).map fun d => d.nodeModules.sizeBytes).sum =
      (((runDeletions fuel now ⟨false, f, c⟩ fs
        (entries.filter fun nm => nm.selected)).1.filter
          fun d => d.success).map fun d => d.nodeModules.sizeBytes).sum
    apply bytesFreed_of_sig
    have hmain := runDeletions_dry_real fuel now f c
      (entries.filter fun nm => nm.selected) [] fs hnl
      (fun nm h => hfuel nm (List.mem_filter.mp h).1)
      (by intro q hq; simp at hq) hdisj
    exact hmain

/-- C2, counterexample: with the same backing directory selected twice, the
dry run frees each copy's bytes while the real run deletes the directory at
the first copy and fails the existence check at the second — the reported
`bytesFreed` totals differ (200 vs 100), though the dry run indeed leaves the
filesystem unchanged. -/
theorem claim_C2_counterexample :
    (deleteSelectedNodeModules fsProject 10 0 [entryP, entryP]
      ⟨true, false, false⟩).2.1 = fsProject ∧
    (deleteSelectedNodeModules fsProject 10 0 [entryP, entryP]
      ⟨true, false, false⟩).1.bytesFreed = 200 ∧
    (deleteSelectedNodeModules fsProject 10 0 [entryP, entryP]
      ⟨false, false, false⟩).1.bytesFreed = 100 ∧
    (deleteSelectedNodeModules fsProject 10 0 [entryP, entryP]
        ⟨true, false, false⟩).1.bytesFreed ≠
      (deleteSelectedNodeModules fsProject 10 0 [entryP, entryP]
        ⟨false, false, false⟩).1.bytesFreed :=
  ⟨by decide, by decide, by decide, by decide⟩

theorem claim_C2_amended_witness :
    (deleteSelectedNodeModules fsProject 10 0 [entryP] ⟨true, false, true⟩).2.1 =
      fsProject ∧
    (deleteSelectedNodeModules fsProject 10 0 [entryP]
        ⟨true, false, true⟩).1.bytesFreed =
      (deleteSelectedNodeModules fsProject 10 0 [entryP]
        ⟨false, false, true⟩).1.bytesFreed :=
  claim_C2_amended fsProject 10 0 false true [entryP] (by decide) (by decide)
    (by decide)

/-- C3 (code bug): the claim says the fallback estimator's
`topLevelPackageCount` is the number of depth-1 non-dot subdirectories.  In the
code the `isTopLevel` flag is cleared after the first worklist iteration —
which always processes the root itself, never counted — so the returned
`packageCount` is `0` on every input.  On `fsOnePkg` (exactly one top-level
package, one 100-byte file) the traversal returns
`totalSize = 100 + 2·4096 = 8292` and `totalPackageCount = 1` as the claim
describes, but `packageCount = 0` whereas the tree has one top-level
package. -/
theorem claim_C3_bug :
    calculateDirectorySize fsOnePkg 10 10 ["", "nm"] = some ⟨8292, 0, 1⟩ ∧
    specTopLevelPackageCount fsOnePkg ["", "nm"] = 1 ∧
    (∀ (fs : FS) (lf loopFuel : Nat) (p : Path) (r : SizeAcc),
      calculateDirectorySize fs lf loopFuel p = some r → r.packageCount = 0) := by
  refine ⟨by decide, by decide, ?_⟩
  intro fs lf loopFuel p r h
  exact calculateDirectorySize_packageCount fs lf loopFuel p r h

theorem claim_C3_bug_witness : (⟨8292, 0, 1⟩ : SizeAcc).packageCount = 0 :=
  claim_C3_bug.2.2 fsOnePkg 10 10 ["", "nm"] ⟨8292, 0, 1⟩ (by decide)

/-- C4 (code bug): the claim says the fallback traversal never traverses into
a directory reached via a symbolic link.  The loop stats each worklist path
with `fs.stat` — which resolves links — and then pushes the readdir children
of the resolved directory, so the subtree behind `/r/link → /r/sub` IS
traversed: on `fsWithLink` the totals exceed those of the same tree without
the link by exactly the linked subtree (4096 + 7 bytes, one more package),
and the through-link path `/r/link/f` stats to the file behind the link. -/
theorem claim_C4_bug :
    calculateDirectorySize fsWithLink 20 20 ["", "r"] = some ⟨12302, 0, 2⟩ ∧
    calculateDirectorySize (delink fsWithLink) 20 20 ["", "r"] = some ⟨8199, 0, 1⟩ ∧
    statFS fsWithLink 20 ["", "r", "link", "f"] = some (FMeta.file 7 0) :=
  ⟨by decide, by decide, by decide⟩

/-- C5: on the nested tree `project/node_modules/pkg/node_modules/nested` a
scan of `project` reports exactly the outer `node_modules`; and in general
the discovery filter rejects every candidate whose parent directory lies
inside a directory named `node_modules` at any depth. -/
theorem claim_C5 :
    quickScan fsNested ["", "project"] = [["", "project", "node_modules"]] ∧
    ∀ p : Path, "node_modules" ∈ pathDir p → quickScanFilter p = false := by
  constructor
  · decide
  · intro p hmem
    have hc : pathContains (pathDir p) "node_modules" = true :=
      pathContains_of_mem hmem
    unfold quickScanFilter
    rw [hc]
    simp

theorem claim_C5_witness :
    quickScanFilter ["", "project", "node_modules", "pkg", "node_modules"] = false :=
  claim_C5.2 ["", "project", "node_modules", "pkg", "node_modules"] (by decide)

/-- C7: across any scan, the percentages of successive `onProgress` calls are
non-decreasing and the final call reports exactly `(100, found)`; across any
deletion batch, the `current` values of successive calls are non-decreasing,
every call's `total` is the number of selected entries, and the final call has
`current = total`. -/
theorem claim_C7 (fs : FS) (lf tf : Nat) (now : Int) (opts : ScanOptions)
    (lazy : Bool) (dfs : FS) (dfuel : Nat) (dnow : Int)
    (entries : List NodeModulesInfo) (dopts : DeleteOptions) :
    (List.Chain' (fun a b : Nat => a ≤ b)
       (((scanForNodeModules fs lf tf now opts lazy).1).map fun x => x.1) ∧
     ((scanForNodeModules fs lf tf now opts lazy).1).getLast? =
       some (100, (scanForNodeModules fs lf tf now opts lazy).2.1)) ∧
    (List.Chain' (fun a b : Nat × Nat × String => a.1 ≤ b.1)
       ((deleteSelectedNodeModules dfs dfuel dnow entries dopts).2.2) ∧
     (∀ x ∈ (deleteSelectedNodeModules dfs dfuel dnow entries dopts).2.2,
        x.2.1 = (entries.filter fun nm => nm.selected).length) ∧
     ∀ x, ((deleteSelectedNodeModules dfs dfuel dnow entries dopts).2.2).getLast? =
        some x → x.1 = (entries.filter fun nm => nm.selected).length) := by
  refine ⟨⟨?_, ?_⟩, ?_, ?_, ?_⟩
  · unfold scanForNodeModules
    simp only [List.map_cons, List.map_append, List.map_nil]
    by_cases ht : 0 < ((dirsUnder fs opts.rootPath).filter
        (scanFilter opts.rootPath opts.maxDepth)).length
    · have hch := scanLoop_chain fs lf tf now opts lazy _ ht
        ((dirsUnder fs opts.rootPath).filter (scanFilter opts.rootPath opts.maxDepth))
        0 (by omega)
      rw [round90_zero ht] at hch
      exact List.Chain'.cons (by omega) hch
    · have hnil : (dirsUnder fs opts.rootPath).filter
          (scanFilter opts.rootPath opts.maxDepth) = [] := by
        rw [← List.length_eq_zero]
        omega
      rw [hnil]
      simp only [scanLoop, List.length_nil, List.map_nil, List.nil_append]
      exact List.Chain'.cons (by omega) (List.chain'_pair.mpr (by omega))
  · exact getLast_cons_cons_concat _ _ _ _
  · show List.Chain' _
      (deletionTrace (entries.filter fun nm => nm.selected).length 0
        (entries.filter fun nm => nm.selected))
    exact deletionTrace_chain _ _ 0
  · intro x hx
    exact deletionTrace_mem_total _ _ 0 x hx
  · intro x hx
    have h := deletionTrace_last _ _ 0 x hx
    omega

theorem claim_C7_witness :
    ((deleteSelectedNodeModules fsProject 10 0 [entryP, entryP]
        ⟨true, false, false⟩).2.2).getLast? = some (2, 2, "p") ∧
    ((2, 2, ("p" : String)) : Nat × Nat × String).1 =
      ([entryP, entryP].filter fun nm => nm.selected).length :=
  ⟨by decide,
   (claim_C7 fsNested 20 20 0 ⟨["", "project"], none, none, none⟩ false
      fsProject 10 0 [entryP, entryP] ⟨true, false, false⟩).2.2.2 (2, 2, "p")
     (by decide)⟩

/-- C8: `selectBySize` sets `selected` on every entry whose `sizeBytes` is at
least the threshold (inclusive), keeps the previous `selected` value on
entries below it, and leaves every other field of every entry unchanged. -/
theorem claim_C8 (entries : List NodeModulesInfo) (minBytes : Nat) :
    List.Forall₂ (fun old new =>
      new.selected = (if minBytes ≤ old.sizeBytes then true else old.selected) ∧
      new.path = old.path ∧ new.projectPath = old.projectPath ∧
      new.projectName = old.projectName ∧ new.sizeBytes = old.sizeBytes ∧
      new.packageCount = old.packageCount ∧
      new.totalPackageCount = old.totalPackageCount ∧
      new.lastModified = old.lastModified ∧ new.isFavorite = old.isFavorite)
      entries (selectBySize entries minBytes) := by
  induction entries with
  | nil => simp [selectBySize]
  | cons e t ih =>
    rw [selectBySize] at ih ⊢
    simp only [List.map_cons, List.forall₂_cons]
    refine ⟨?_, ih⟩
    by_cases h : minBytes ≤ e.sizeBytes <;> simp [h]

/-- C9: `parseSize` accepts exactly the strings of the spec's format — after
surrounding-whitespace trimming and case lowering, a decimal number with an
optional fractional part, then optional whitespace, then an optional unit
suffix among b/kb/mb/gb/tb — and returns the floored product of the decimal
value and the unit's multiplier; every other input yields the explicit
not-parseable result `none`.  The function is total, so no input can make it
throw. -/
theorem claim_C9 (s : String) (n : Nat) : parseSize s = some n ↔ SizeSpec s n := by
  constructor
  · intro h
    simp only [parseSize] at h
    by_cases h0 : ((jsNormalize s).takeWhile Char.isDigit).isEmpty
    · rw [if_pos h0] at h
      exact absurd h (by simp)
    · rw [if_neg h0] at h
      have hne : (jsNormalize s).takeWhile Char.isDigit ≠ [] := by
        simpa [List.isEmpty_iff] using h0
      have hdig : ∀ ch ∈ (jsNormalize s).takeWhile Char.isDigit,
          ch.isDigit = true := fun ch hch => mem_takeWhile_pred Char.isDigit _ ch hch
      have hsplit0 : jsNormalize s =
          (jsNormalize s).takeWhile Char.isDigit ++
            (jsNormalize s).dropWhile Char.isDigit :=
        (List.takeWhile_append_dropWhile Char.isDigit (jsNormalize s)).symm
      by_cases hdot : ((jsNormalize s).dropWhile Char.isDigit).head? = some '.'
      · rw [if_pos hdot] at h
        by_cases hfe : (((jsNormalize s).dropWhile
            Char.isDigit).tail.takeWhile Char.isDigit).isEmpty
        · rw [if_pos hfe] at h
          exact absurd h (by simp)
        · rw [if_neg hfe] at h
          cases hmu : unitMultiplier ((((jsNormalize s).dropWhile
              Char.isDigit).tail.dropWhile Char.isDigit).dropWhile jsWhitespace) with
          | none =>
            rw [hmu] at h
            exact absurd h (by simp)
          | some mult =>
            rw [hmu] at h
            simp only [Option.map_some', Option.some_inj] at h
            have hrest : (jsNormalize s).dropWhile Char.isDigit =
                '.' :: ((jsNormalize s).dropWhile Char.isDigit).tail := by
              cases hr : (jsNormalize s).dropWhile Char.isDigit with
              | nil => rw [hr] at hdot; simp at hdot
              | cons c cs =>
                rw [hr] at hdot
                simp only [List.head?_cons, Option.some_inj] at hdot
                rw [hdot]
                rfl
            refine ⟨(jsNormalize s).takeWhile Char.isDigit,
              '.' :: ((jsNormalize s).dropWhile Char.isDigit).tail.takeWhile
                Char.isDigit,
              (((jsNormalize s).dropWhile Char.isDigit).tail.dropWhile
                Char.isDigit).takeWhile jsWhitespace,
              (((jsNormalize s).dropWhile Char.isDigit).tail.dropWhile
                Char.isDigit).dropWhile jsWhitespace,
              mult, ?_, hne, hdig, ?_, ?_, unitMultiplier_some hmu, h.symm⟩
            · calc jsNormalize s
                  = (jsNormalize s).takeWhile Char.isDigit ++
                    (jsNormalize s).dropWhile Char.isDigit := hsplit0
                _ = (jsNormalize s).takeWhile Char.isDigit ++
                    ('.' :: ((jsNormalize s).dropWhile Char.isDigit).tail) := by
                    rw [← hrest]
                _ = _ := by
                    rw [← List.takeWhile_append_dropWhile (p := Char.isDigit)
                      (l := ((jsNormalize s).dropWhile Char.isDigit).tail)]
                    rw [← List.takeWhile_append_dropWhile (p := jsWhitespace)
                      (l := (((jsNormalize s).dropWhile Char.isDigit).tail.dropWhile
                        Char.isDigit))]
                    simp [List.append_assoc]
            · refine Or.inr ⟨_, rfl, ?_, fun ch hch =>
                mem_takeWhile_pred Char.isDigit _ ch hch⟩
              simpa [List.isEmpty_iff] using hfe
            · exact fun ch hch => mem_takeWhile_pred jsWhitespace _ ch hch
      · rw [if_neg hdot] at h
        cases hmu : unitMultiplier (((jsNormalize s).dropWhile
            Char.isDigit).dropWhile jsWhitespace) with
        | none =>
          rw [hmu] at h
          exact absurd h (by simp)
        | some mult =>
          rw [hmu] at h
          simp only [Option.map_some', Option.some_inj] at h
          refine ⟨(jsNormalize s).takeWhile Char.isDigit, [],
            ((jsNormalize s).dropWhile Char.isDigit).takeWhile jsWhitespace,
            ((jsNormalize s).dropWhile Char.isDigit).dropWhile jsWhitespace,
            mult, ?_, hne, hdig, Or.inl rfl, ?_,
            unitMultiplier_some hmu, h.symm⟩
          · calc jsNormalize s
                = (jsNormalize s).takeWhile Char.isDigit ++
                  (jsNormalize s).dropWhile Char.isDigit := hsplit0
              _ = _ := by
                  rw [← List.takeWhile_append_dropWhile (p := jsWhitespace)
                    (l := (jsNormalize s).dropWhile Char.isDigit)]
                  simp [List.append_assoc]
          · exact fun ch hch => mem_takeWhile_pred jsWhitespace _ ch hch
  · rintro ⟨intDs, fd, wsp, unit, mult, ht, hne, hdig, hfd, hws, hmem, hval⟩
    have hunit := unit_shape hmem
    have hwsBound : unit = [] ∨
        ∃ y ys', unit = y :: ys' ∧ jsWhitespace y = false := by
      rcases hunit with rfl | ⟨y, ys, rfl, _, hyw, _⟩
      · exact Or.inl rfl
      · exact Or.inr ⟨y, ys, rfl, hyw⟩
    have hwuBound : (wsp ++ unit) = [] ∨
        ∃ y ys', wsp ++ unit = y :: ys' ∧ Char.isDigit y = false := by
      cases hw : wsp with
      | cons w ws =>
        refine Or.inr ⟨w, ws ++ unit, by simp, ?_⟩
        exact (jsWhitespace_cases (hws w (by rw [hw]; exact List.mem_cons_self w ws))).1
      | nil =>
        rcases hunit with rfl | ⟨y, ys, rfl, hyd, _, _⟩
        · exact Or.inl rfl
        · exact Or.inr ⟨y, ys, by simp, hyd⟩
    have hT : jsNormalize s = intDs ++ (fd ++ (wsp ++ unit)) := by
      rw [ht]
      simp [List.append_assoc]
    have hdigBound : (fd ++ (wsp ++ unit)) = [] ∨
        ∃ y ys', fd ++ (wsp ++ unit) = y :: ys' ∧ Char.isDigit y = false := by
      rcases hfd with rfl | ⟨fdd, rfl, _, _⟩
      · simpa using hwuBound
      · exact Or.inr ⟨'.', fdd ++ (wsp ++ unit), by simp, by decide⟩
    obtain ⟨htakeD, hdropD⟩ :=
      charsSplit Char.isDigit intDs (fd ++ (wsp ++ unit)) hdig hdigBound
    obtain ⟨htakeW, hdropW⟩ := charsSplit jsWhitespace wsp unit hws hwsBound
    simp only [parseSize]
    rw [hT, htakeD, hdropD]
    rw [if_neg (by simpa [List.isEmpty_iff] using hne)]
    rcases hfd with rfl | ⟨fdd, rfl, hfdne, hfdd⟩
    · have hnodot : ¬ (([] ++ (wsp ++ unit) : List Char).head? = some '.') := by
        simp only [List.nil_append]
        cases hw : wsp with
        | cons w ws =>
          have hwc := jsWhitespace_cases (hws w (by rw [hw]; exact List.mem_cons_self w ws))
          simp only [List.cons_append, List.head?_cons, Option.some_inj]
          exact fun hc => hwc.2 hc
        | nil =>
          rcases hunit with rfl | ⟨y, ys, rfl, _, _, hyd⟩
          · simp
          · simp only [List.nil_append, List.head?_cons, Option.some_inj]
            exact fun hc => hyd hc
      rw [if_neg hnodot]
      have hwu : (([] ++ (wsp ++ unit) : List Char)).dropWhile jsWhitespace = unit := by
        simp only [List.nil_append]
        exact hdropW
      rw [hwu, unitMultiplier_mem hmem]
      simp only [Option.map_some', Option.some_inj]
      exact hval.symm
    · have hfBound : (wsp ++ unit) = [] ∨
          ∃ y ys', wsp ++ unit = y :: ys' ∧ Char.isDigit y = false := hwuBound
      obtain ⟨htakeF, hdropF⟩ :=
        charsSplit Char.isDigit fdd (wsp ++ unit) hfdd hfBound
      simp only [List.cons_append, List.head?_cons, List.tail_cons]
      rw [if_pos trivial, htakeF, hdropF]
      rw [if_neg (by simpa [List.isEmpty_iff] using hfdne)]
      rw [hdropW, unitMultiplier_mem hmem]
      simp only [Option.map_some', Option.some_inj]
      exact hval.symm

theorem claim_C9_witness :
    parseSize " 1.5 Kb " = some 1536 ∧ SizeSpec " 1.5 Kb " 1536 :=
  ⟨by decide, (claim_C9 " 1.5 Kb " 1536).mp (by decide)⟩

/-- C10: an entry whose path merely ends in the substring `node_modules`
while its final segment is not exactly `node_modules` is rejected by the
structural verification (`verifyNodeModules` returns `false`), the deletion
reports failure, and the filesystem is unchanged. -/
theorem claim_C10 (fs : FS) (fuel : Nat) (now : Int) (nm : NodeModulesInfo)
    (opts : DeleteOptions)
    (hsuffix : pathEndsWith nm.path "node_modules" = true)
    (hbase : pathBase nm.path ≠ some "node_modules") :
    verifyNodeModules fs fuel nm.path = false ∧
    (deleteNodeModules fs fuel now nm opts).1.success = false ∧
    (deleteNodeModules fs fuel now nm opts).2 = fs := by
  have hv : verifyNodeModules fs fuel nm.path = false := by
    unfold verifyNodeModules
    rw [if_pos hbase]
  refine ⟨hv, ?_⟩
  by_cases h2 : fileExists fs fuel nm.path = true
  · by_cases h3 : opts.checkRunningProcesses = true ∧
        isNodeModulesInUse fs fuel now nm.path = true
    · constructor <;> simp [deleteNodeModules, hsuffix, h2, h3]
    · constructor <;> simp [deleteNodeModules, hsuffix, h2, h3, hv]
  · constructor <;> simp [deleteNodeModules, hsuffix, h2]



/-- C6: in a deletion batch, an entry whose backing directory no longer
exists when its turn comes yields a failed outcome whose reason is the
"Directory does not exist" message, and the batch still produces one outcome
for every selected entry, in order (the loop is total — failures are recorded
per entry, never thrown). -/
theorem claim_C6 (fs : FS) (fuel : Nat) (now : Int) (opts : DeleteOptions)
    (pre post : List NodeModulesInfo) (e : NodeModulesInfo)
    (hsel : e.selected = true)
    (hend : pathEndsWith e.path "node_modules" = true)
    (hgone : fileExists (runDeletions fuel now opts fs
        (pre.filter fun nm => nm.selected)).2 fuel e.path = false) :
    ((deleteSelectedNodeModules fs fuel now (pre ++ e :: post) opts).1.details.map
        fun d => d.nodeModules) = (pre ++ e :: post).filter (fun nm => nm.selected) ∧
    ((deleteSelectedNodeModules fs fuel now (pre ++ e :: post) opts).1.details[
        (pre.filter fun nm => nm.selected).length]?) =
      some ⟨e, false, some msgNotExist⟩ := by
  have hfilter : (pre ++ e :: post).filter (fun nm => nm.selected) =
      (pre.filter fun nm => nm.selected) ++
        e :: (post.filter fun nm => nm.selected) := by
    rw [List.filter_append, List.filter_cons_of_pos]
    exact hsel
  have hdetails :
      (deleteSelectedNodeModules fs fuel now (pre ++ e :: post) opts).1.details =
        (runDeletions fuel now opts fs
          ((pre ++ e :: post).filter fun nm => nm.selected)).1 := rfl
  constructor
  · rw [hdetails, runDeletions_map_nodeModules]
  · rw [hdetails, hfilter, runDeletions_append]
    have hmid : runDeletions fuel now opts
        (runDeletions fuel now opts fs (pre.filter fun nm => nm.selected)).2
        (e :: (post.filter fun nm => nm.selected)) =
        ((⟨e, false, some msgNotExist⟩ : DeletionDetail) ::
          (runDeletions fuel now opts
            (runDeletions fuel now opts fs (pre.filter fun nm => nm.selected)).2
            (post.filter fun nm => nm.selected)).1,
         (runDeletions fuel now opts
            (runDeletions fuel now opts fs (pre.filter fun nm => nm.selected)).2
            (post.filter fun nm => nm.selected)).2) := by
      rw [runDeletions]
      rw [deleteNodeModules_missing _ _ _ _ _ hend hgone]
    rw [hmid]
    rw [List.getElem?_append_right]
    · rw [runDeletions_length]
      simp
    · rw [runDeletions_length]

theorem claim_C6_witness :
    ((deleteSelectedNodeModules fsProject 10 0 ([] ++ entryGone :: [entryP])
        ⟨false, false, false⟩).1.details.map fun d => d.nodeModules) =
      ([] ++ entryGone :: [entryP]).filter (fun nm => nm.selected) ∧
    ((deleteSelectedNodeModules fsProject 10 0 ([] ++ entryGone :: [entryP])
        ⟨false, false, false⟩).1.details[
        (([] : List NodeModulesInfo).filter fun nm => nm.selected).length]?) =
      some ⟨entryGone, false, some msgNotExist⟩ :=
  claim_C6 fsProject 10 0 ⟨false, false, false⟩ [] [entryP] entryGone
    (by decide) (by decide) (by decide)

theorem claim_C10_witness :
    verifyNodeModules fsProject 10 entryFake.path = false ∧
    (deleteNodeModules fsProject 10 0 entryFake ⟨false, false, false⟩).1.success = false ∧
    (deleteNodeModules fsProject 10 0 entryFake ⟨false, false, false⟩).2 = fsProject :=
  claim_C10 fsProject 10 0 entryFake ⟨false, false, false⟩ (by decide) (by decide)

end ONM
